import Mathlib

/-!
Verification of the gitlab-ci-parser resolution engine (src/lib.rs).

The Rust source is shallowly embedded here:
* `serde_yaml::Value` becomes `Value` (YAML numbers are modelled as integers;
  only their display string matters to the parser).
* `BTreeMap<String, String>` becomes `Vars`, a key-sorted association list;
  `mapInsert` is `BTreeMap::insert` (overwrite on equal key, keep sort order).
* `serde_yaml::Mapping` becomes `Ymap`, an insertion-ordered association list;
  `ymapGet` is `Mapping::get` with a string key (the source only ever uses
  string keys).
* The file system and the external merge-key pre-pass are parameters
  (`FS`, `MergeKeys`): the engine consumes them as services.
* Recursion in the source (`parse_job`, `parse_aux`/`parse_includes`) is
  unbounded; it is embedded with an explicit fuel argument.  `POut.diverge`
  (or `none` for `parse_job`) marks fuel exhaustion, i.e. a computation that
  has not terminated within the given recursion budget; `POut.panicked`
  marks a Rust panic (`unwrap` / `expect`).
-/

/-- Model of `serde_yaml::Value`.  Numbers are restricted to integers; the
parser only ever converts them to their display string. -/
inductive Value where
  | null : Value
  | bool (b : Bool) : Value
  | num (n : Int) : Value
  | str (s : String) : Value
  | seq (l : List Value) : Value
  | map (m : List (Value × Value)) : Value

abbrev Ymap := List (Value × Value)

/-- `Mapping::get(&Value::String(key))`: first entry whose key is the given
string (keys are unique in a real `Mapping`; the source only uses string
keys for lookups). -/
def ymapGet : Ymap → String → Option Value
  | [], _ => none
  | (k, v) :: rest, key =>
    match k with
    | .str s => if s = key then some v else ymapGet rest key
    | _ => ymapGet rest key

/-- `Mapping::contains_key(&Value::String(key))`. -/
def ymapContains (m : Ymap) (key : String) : Bool :=
  (ymapGet m key).isSome

/-- Model of `BTreeMap<String, String>`: a list of pairs strictly sorted by
key. -/
abbrev Vars := List (String × String)

/-- `BTreeMap::insert`: overwrite the value at an existing key, otherwise
insert at the sorted position. -/
def mapInsert (k v : String) : Vars → Vars
  | [] => [(k, v)]
  | (k', v') :: rest =>
    if k < k' then (k, v) :: (k', v') :: rest
    else if k = k' then (k, v) :: rest
    else (k', v') :: mapInsert k v rest

/-- `BTreeMap::get`. -/
def varsLookup (k : String) : Vars → Option String
  | [] => none
  | (k', v) :: rest => if k = k' then some v else varsLookup k rest

/-- `BTreeMap::extend` / a `for`-loop of inserts: insert every pair of `xs`
into `base`, in order. -/
def insertAll (base : Vars) (xs : Vars) : Vars :=
  xs.foldl (fun acc kv => mapInsert kv.1 kv.2 acc) base

/-- The last value written for key `k` when the pairs of a list are inserted
left to right. -/
def lastVal (k : String) : Vars → Option String
  | [] => none
  | (k', v) :: rest =>
    match lastVal k rest with
    | some r => some r
    | none => if k = k' then some v else none

/-- Left-biased choice on options (first result wins). -/
def oor (a b : Option String) : Option String :=
  match a with
  | some x => some x
  | none => b

/-- The sortedness invariant of `BTreeMap` in this representation. -/
def VarsSorted (m : Vars) : Prop :=
  List.Pairwise (fun a b => a.1 < b.1) m

/-- Rust struct `Job` (src/lib.rs).  `extends_jobs` holds the resolved
parent-job references (`Vec<Rc<Job>>`); in this pure embedding shared
references become structural copies.  The raw `extends` name list is called
`extendsNames` here because `extends` is a reserved word in Lean. -/
inductive Job where
  | mk (stage : Option String) (before_script : Option (List String))
      (script : Option (List String)) (vars : Option Vars)
      (extendsNames : Option (List String)) (extends_jobs : List Job)

def Job.stage : Job → Option String
  | .mk s _ _ _ _ _ => s

def Job.before_script : Job → Option (List String)
  | .mk _ b _ _ _ _ => b

def Job.script : Job → Option (List String)
  | .mk _ _ sc _ _ _ => sc

def Job.variables : Job → Option Vars
  | .mk _ _ _ v _ _ => v

def Job.extendsNames : Job → Option (List String)
  | .mk _ _ _ _ e _ => e

def Job.extends_jobs : Job → List Job
  | .mk _ _ _ _ _ js => js

def Job.withExtendsJobs : Job → List Job → Job
  | .mk s b sc v e _, js => .mk s b sc v e js

/-- A job with its resolved-parent list erased: the raw fields the Job
Builder produced, before the Extension Resolver filled `extends_jobs`. -/
def Job.sansParents (j : Job) : Job := j.withExtendsJobs []

mutual
/-- `Job::calculate_variables`: recursively apply each resolved parent's
variables in order, then overwrite with the job's own variables. -/
def Job.calculate_variables : Job → Vars → Vars
  | .mk _ _ _ vars _ ejs, acc =>
    match vars with
    | some vs => insertAll (Job.calcList ejs acc) vs
    | none => Job.calcList ejs acc

/-- The `for parent in &self.extends_jobs` loop of `calculate_variables`. -/
def Job.calcList : List Job → Vars → Vars
  | [], acc => acc
  | j :: rest, acc => Job.calcList rest (Job.calculate_variables j acc)
end

/-- `Job::get_merged_variables`. -/
def Job.get_merged_variables (j : Job) : Vars :=
  j.calculate_variables []

/-- Rust struct `GitlabCIConfig`: file identity, optional include-parent,
global variables, stage list and the job map (`BTreeMap<JobName, Rc<Job>>`,
modelled as an association list with unique keys). -/
inductive GitlabCIConfig where
  | mk (file : String) (parent : Option GitlabCIConfig) (vars : Vars)
      (stages : List String) (jobs : List (String × Job))

def GitlabCIConfig.file : GitlabCIConfig → String
  | .mk f _ _ _ _ => f

def GitlabCIConfig.parent : GitlabCIConfig → Option GitlabCIConfig
  | .mk _ p _ _ _ => p

def GitlabCIConfig.variables : GitlabCIConfig → Vars
  | .mk _ _ v _ _ => v

def GitlabCIConfig.stages : GitlabCIConfig → List String
  | .mk _ _ _ st _ => st

def GitlabCIConfig.jobs : GitlabCIConfig → List (String × Job)
  | .mk _ _ _ _ js => js

/-- `BTreeMap::get` on the job map (keys unique). -/
def jobsFind : List (String × Job) → String → Option Job
  | [], _ => none
  | (n, j) :: rest, name => if name = n then some j else jobsFind rest name

/-- `BTreeMap::contains_key` on the job map. -/
def jobsContains (jobs : List (String × Job)) (name : String) : Bool :=
  (jobsFind jobs name).isSome

/-- `GitlabCIConfig::lookup_job`: own job map first, then delegate to the
include-parent chain. -/
def lookup_job : GitlabCIConfig → String → Option Job
  | .mk _ none _ _ jobs, name => jobsFind jobs name
  | .mk _ (some p) _ _ jobs, name =>
    match jobsFind jobs name with
    | some j => some j
    | none => lookup_job p name

/-- `GitlabCIConfig::calculate_variables`: parent chain first (recursively),
then extend with this file's own global variables. -/
def GitlabCIConfig.calculate_variables : GitlabCIConfig → Vars → Vars
  | .mk _ none vars _ _, acc => insertAll acc vars
  | .mk _ (some p) vars _ _, acc =>
    insertAll (GitlabCIConfig.calculate_variables p acc) vars

/-- `GitlabCIConfig::get_merged_variables`. -/
def GitlabCIConfig.get_merged_variables (c : GitlabCIConfig) : Vars :=
  c.calculate_variables []

/-- The own-variable maps along the include-parent chain, oldest ancestor
first, the configuration itself last (the spec's `[A1.own, ..., Ak.own,
C.own]`). -/
def configChain : GitlabCIConfig → List Vars
  | .mk _ none vars _ _ => [vars]
  | .mk _ (some p) vars _ _ => configChain p ++ [vars]

/-- The job-variable merge as worded by the spec (§8): fold the parents'
fully merged variables in resolved order, then the job's own variables,
later writes overwriting earlier ones. -/
def specMergedJobVars (j : Job) : Vars :=
  insertAll
    (j.extends_jobs.foldl (fun acc p => insertAll acc p.get_merged_variables) [])
    (j.variables.getD [])

/-- The configuration-variable merge as worded by the spec (§8): fold the
own-variable maps from the oldest ancestor to the current file. -/
def specMergedConfigVars (c : GitlabCIConfig) : Vars :=
  (configChain c).foldl insertAll []

mutual
/-- Lookup characterisation of a job's fully merged variables: own variables
win, then later parents beat earlier parents. -/
def Job.mergedLookup (k : String) : Job → Option String
  | .mk _ _ _ vars _ ejs =>
    oor (lastVal k (vars.getD [])) (Job.mergedLookupList k ejs)

def Job.mergedLookupList (k : String) : List Job → Option String
  | [] => none
  | j :: rest => oor (Job.mergedLookupList k rest) (Job.mergedLookup k j)
end

/-- Model of the result of reading and YAML-parsing one file: the external
file system plus `serde_yaml::from_reader` service consumed by `parse_aux`.
`notFound` is `File::open` failing with not-found, `ioErr` any other I/O
failure, `badYaml` a YAML syntax error, `value` a successfully parsed
document. -/
inductive ReadOutcome where
  | notFound : ReadOutcome
  | ioErr : ReadOutcome
  | badYaml : ReadOutcome
  | value (v : Value) : ReadOutcome

abbrev FS := String → ReadOutcome

/-- The external `yaml_merge_keys::merge_keys_serde` pre-pass: `none` models
its failure. -/
abbrev MergeKeys := Value → Option Value

/-- The error values `parse_aux` can return (`Result::Err` contents):
open/read errors, YAML syntax errors, and the `?` on
`serde_yaml::from_value::<Mapping>` in the top-level `variables` arm. -/
inductive ParseErr where
  | notFound : ParseErr
  | ioErr : ParseErr
  | badYaml : ParseErr
  | varsNotMapping : ParseErr

/-- Outcome of running an embedded fallible computation: `panicked` is a
Rust panic (`unwrap`/`expect`), `diverge` is fuel exhaustion (the Rust
recursion does not terminate within the given budget), `fatal` an `Err`
return, `ok` an `Ok` return. -/
inductive POut (α : Type) where
  | panicked : POut α
  | diverge : POut α
  | fatal (e : ParseErr) : POut α
  | ok (a : α) : POut α

/-- `std::path::Path::join`: appends, unless the second component is
absolute. -/
def pathJoin (a b : String) : String :=
  match b.toList with
  | '/' :: _ => b
  | _ =>
    match a.toList with
    | [] => b
    | _ => a ++ "/" ++ b

/-- `std::path::Path::parent`, approximated on plain strings: `none` for an
empty or root path, otherwise everything before the final separator (or the
empty string when there is none). -/
def dirOf (p : String) : Option String :=
  match p.toList with
  | [] => none
  | ['/'] => none
  | cs =>
    match (cs.reverse.dropWhile (fun c => c ≠ '/')) with
    | [] => some ""
    | _ :: restAfter => some (String.mk restAfter.reverse)

/-- `parse_value_as_string`. -/
def parse_value_as_string : Value → Option String
  | .str result => some result
  | _ => none

/-- `parse_value_as_strings`: a single string is promoted to a one-element
list; non-string sequence elements are silently dropped. -/
def parse_value_as_strings : Value → Option (List String)
  | .str result => some [result]
  | .seq results => some (results.filterMap parse_value_as_string)
  | _ => none

/-- `parse_value_as_map`: mapping entries with a string key keep string
values as-is and stringify numbers and booleans; anything else is dropped
with a warning. -/
def parse_value_as_map : Value → Option Vars
  | .map mapping =>
    some (mapping.foldl (fun res kv =>
      match kv with
      | (.str k, .str v) => mapInsert k v res
      | (.str k, .num v) => mapInsert k (toString v) res
      | (.str k, .bool v) => mapInsert k (toString v) res
      | _ => res) [])
  | _ => none

/-- `parse_raw_job`: extract the five job fields.  The Rust function returns
`Result` but can never fail, so it is embedded as a total function. -/
def parse_raw_job (yml : Ymap) : Job :=
  Job.mk
    ((ymapGet yml "stage").bind parse_value_as_string)
    ((ymapGet yml "before_script").bind parse_value_as_strings)
    ((ymapGet yml "script").bind parse_value_as_strings)
    ((ymapGet yml "variables").bind parse_value_as_map)
    ((ymapGet yml "extends").bind parse_value_as_strings)
    []

/-- `parse_job`: build the job for `job_name` from the document `top`,
recursively building extends targets that are keys of `top` (unless the
target is the job itself) and otherwise looking them up via
`config.lookup_job`.  `none` is fuel exhaustion, `some (.error ())` the
`Err("Job not found")` return, `some (.ok j)` success.  The recursion is
embedded with fuel because nothing in the source bounds it. -/
def parse_job : Nat → GitlabCIConfig → String → Ymap → Option (Except Unit Job)
  | 0, _, _, _ => none
  | fuel+1, config, job_name, top =>
    match ymapGet top job_name with
    | some (.map job) =>
      let j := parse_raw_job job
      match j.extendsNames with
      | some parent_job_names =>
        let resolved : Option (List Job) :=
          parent_job_names.foldl (fun acc parent_job_name =>
            match acc with
            | none => none
            | some js =>
              if job_name ≠ parent_job_name ∧ ymapContains top parent_job_name = true then
                match parse_job fuel config parent_job_name top with
                | none => none
                | some (.ok parent) => some (js ++ [parent])
                | some (.error _) => some js
              else
                match lookup_job config parent_job_name with
                | some parent => some (js ++ [parent])
                | none => some js) (some [])
        match resolved with
        | none => none
        | some js => some (.ok (j.withExtendsJobs js))
      | none => some (.ok j)
    | _ => some (.error ())

/-- The `for (key, value) in global_var_map` loop of the `variables` arm of
`parse_aux`: insert every string-to-string entry into the accumulated
global variables, silently skip the rest. -/
def applyGlobalVars (base : Vars) (global_var_map : Ymap) : Vars :=
  global_var_map.foldl (fun acc kv =>
    match kv with
    | (.str key, .str value) => mapInsert key value acc
    | _ => acc) base

/-- The per-entry body of `parse_aux`'s top-level loop, applied to the
remaining entries of the document map: `variables` populates global
variables (a non-mapping value makes the `?` on `serde_yaml::from_value`
propagate an error), a `stages` sequence appends its string elements, and
every other string key is routed to `parse_job`, skipping keys already
present in the job map.  `top` is the whole document (used for lookups);
`entries` the remaining iteration suffix. -/
def parse_aux_entries : Nat → Ymap → List (Value × Value) → GitlabCIConfig → POut GitlabCIConfig
  | _, _, [], config => .ok config
  | fuel, top, (k, v) :: rest, config =>
    match k with
    | .str key =>
      if jobsContains config.jobs key then
        parse_aux_entries fuel top rest config
      else if key = "variables" then
        match v with
        | .map global_var_map =>
          parse_aux_entries fuel top rest
            (.mk config.file config.parent
              (applyGlobalVars config.variables global_var_map)
              config.stages config.jobs)
        | _ => .fatal .varsNotMapping
      else
        match key, v with
        | "stages", .seq seq =>
          let newStages := config.stages ++ seq.filterMap (fun stage =>
            match stage with
            | .str stage_name => some stage_name
            | _ => none)
          parse_aux_entries fuel top rest
            (.mk config.file config.parent config.variables newStages config.jobs)
        | _, _ =>
          match parse_job fuel config key top with
          | none => .diverge
          | some (.error _) => parse_aux_entries fuel top rest config
          | some (.ok job) =>
            parse_aux_entries fuel top rest
              (.mk config.file config.parent config.variables config.stages
                (config.jobs ++ [(key, job)]))
    | _ => parse_aux_entries fuel top rest config

mutual
/-- `parse_includes`: resolve one `include` node into at most one parent
configuration, threading the accumulated parent.  A bare string strips one
leading separator (panicking via `unwrap` on an empty string) and is joined
twice with the context directory, exactly as the source does; a sequence
folds its elements left to right; a mapping uses its `local` or `project`
(+ optional `file`) keys; anything else passes the accumulated parent
through.  Failed recursive parses are converted to `None` by `.ok()`. -/
def parse_includes : Nat → FS → MergeKeys → String → Value → Option GitlabCIConfig → POut (Option GitlabCIConfig)
  | 0, _, _, _, _, _ => .diverge
  | fuel+1, fs, mk, context, inc, parent =>
    match inc with
    | .str include_filename =>
      match include_filename.toList with
      | [] => .panicked
      | ch :: restChars =>
        let stripped :=
          if ch = '/' ∨ ch = '\\' then String.mk restChars else include_filename
        let joined := pathJoin context stripped
        match parse_aux fuel fs mk (pathJoin context joined) parent with
        | .ok c => .ok (some c)
        | .fatal _ => .ok none
        | .panicked => .panicked
        | .diverge => .diverge
    | .seq includes => parse_includes_list fuel fs mk context includes parent
    | .map m =>
      match ymapGet m "local" with
      | some (.str loc) =>
        match parse_aux fuel fs mk (pathJoin context loc) parent with
        | .ok c => .ok (some c)
        | .fatal _ => .ok none
        | .panicked => .panicked
        | .diverge => .diverge
      | _ =>
        match ymapGet m "project" with
        | some (.str project) =>
          let project_name :=
            match (project.splitOn "/").reverse with
            | [] => ""
            | n :: _ => n
          match (ymapGet m "file").getD (.str ".gitlab-ci.yml") with
          | .str file =>
            match parse_aux fuel fs mk
                (pathJoin context (pathJoin (pathJoin ".." project_name) file)) parent with
            | .ok c => .ok (some c)
            | .fatal _ => .ok none
            | .panicked => .panicked
            | .diverge => .diverge
          | _ => .ok parent
        | _ => .ok parent
    | _ => .ok parent

/-- The `Value::Sequence` loop of `parse_includes`: each element's result
becomes the accumulated parent for the next. -/
def parse_includes_list : Nat → FS → MergeKeys → String → List Value → Option GitlabCIConfig → POut (Option GitlabCIConfig)
  | 0, _, _, _, _, _ => .diverge
  | fuel+1, fs, mk, context, includes, parent =>
    match includes with
    | [] => .ok parent
    | inc :: rest =>
      match parse_includes fuel fs mk context inc parent with
      | .ok parent2 => parse_includes_list fuel fs mk context rest parent2
      | .panicked => .panicked
      | .diverge => .diverge
      | .fatal e => .fatal e

/-- `parse_aux`: open and YAML-parse the file (propagating root errors),
run the merge-key pre-pass (panicking via `expect` on its failure), resolve
any `include` key into the parent chain (panicking via `expect` when the
file path has no parent directory), then fold the document's top-level
entries.  A non-mapping document yields an empty configuration whose parent
field stays `None`. -/
def parse_aux : Nat → FS → MergeKeys → String → Option GitlabCIConfig → POut GitlabCIConfig
  | 0, _, _, _, _ => .diverge
  | fuel+1, fs, mk, gitlab_file, parent =>
    match fs gitlab_file with
    | .notFound => .fatal .notFound
    | .ioErr => .fatal .ioErr
    | .badYaml => .fatal .badYaml
    | .value raw_yaml =>
      match mk raw_yaml with
      | none => .panicked
      | some val =>
        match val with
        | .map m =>
          let parentRes : POut (Option GitlabCIConfig) :=
            match ymapGet m "include" with
            | some includes =>
              match dirOf gitlab_file with
              | none => .panicked
              | some context => parse_includes fuel fs mk context includes parent
            | none => .ok parent
          match parentRes with
          | .panicked => .panicked
          | .diverge => .diverge
          | .fatal e => .fatal e
          | .ok p => parse_aux_entries fuel m m (.mk gitlab_file p [] [] [])
        | _ => .ok (.mk gitlab_file none [] [] [])
end

/-- The public entry point `parse`. -/
def parse (fuel : Nat) (fs : FS) (mk : MergeKeys) (gitlab_file : String) :
    POut GitlabCIConfig :=
  parse_aux fuel fs mk gitlab_file none

/-- Does a document entry carry the given string key? -/
def entryKeyIs (name : String) (kv : Value × Value) : Bool :=
  match kv.1 with
  | .str s => s = name
  | _ => false

/-- The entries of a document that carry the given string key. -/
def docFilter (doc : Ymap) (name : String) : List (Value × Value) :=
  doc.filter (entryKeyIs name)

/-- Include-node shapes that match none of `parse_includes`' recognised
arms: scalars other than strings, and mappings with neither a string
`local` key nor a string `project` key. -/
def includeUnrecognized : Value → Bool
  | .null => true
  | .bool _ => true
  | .num _ => true
  | .map m =>
    (match ymapGet m "local" with
     | some (.str _) => false
     | _ => true)
    && (match ymapGet m "project" with
        | some (.str _) => false
        | _ => true)
  | _ => false

/-- The path a non-empty bare-string include entry is resolved to: one
leading separator stripped, then joined twice with the context directory
(the source joins `context` with the already-joined path again). -/
def stringIncludePath (context s : String) : String :=
  let stripped :=
    match s.toList with
    | [] => s
    | ch :: restChars => if ch = '/' ∨ ch = '\\' then String.mk restChars else s
  pathJoin context (pathJoin context stripped)

/-- The string-valued entries of a global `variables` mapping, in order;
number- and boolean-valued entries are omitted. -/
def globalStringPairs (vm : Ymap) : Vars :=
  vm.filterMap (fun kv =>
    match kv with
    | (.str k, .str v) => some (k, v)
    | _ => none)

/-- The job-level variable coercion: string values kept, number and boolean
values stringified, everything else dropped. -/
def jobCoercedPairs (vm : Ymap) : Vars :=
  vm.filterMap (fun kv =>
    match kv with
    | (.str k, .str v) => some (k, v)
    | (.str k, .num v) => some (k, toString v)
    | (.str k, .bool v) => some (k, toString v)
    | _ => none)

/-- A merge-key pre-pass that always succeeds without changing the document
(anchor-free documents). -/
def mkId : MergeKeys := fun v => some v

/-- A merge-key pre-pass that always fails. -/
def mkFailing : MergeKeys := fun _ => none

/-- A file system with no files. -/
def fsNone : FS := fun _ => .notFound

/-- A document whose jobs form a mutual extends cycle: job `a` lists `b` in
its extends names and `b` lists `a`. -/
def cyclicTop : Ymap :=
  [(.str "a", .map [(.str "extends", .str "b")]),
   (.str "b", .map [(.str "extends", .str "a")])]

/-- A file system serving the mutual-cycle document at `ci.yml`. -/
def fsCyclic : FS := fun path =>
  if path = "ci.yml" then .value (.map cyclicTop) else .notFound

/-- A file system holding one empty (but valid) document at `d/d/a.yml`,
the path the include entry `a.yml` resolves to from context `d`; every
other path, in particular the one `b.yml` resolves to, is missing. -/
def fsC2 : FS := fun path =>
  if path = "d/d/a.yml" then .value (.map []) else .notFound

/-- The configuration that parsing `d/d/a.yml` through `fsC2` produces. -/
def cfgA : GitlabCIConfig := .mk "d/d/a.yml" none [] [] []

/-- A document whose top-level `variables` key holds a number, not a
mapping. -/
def docC5 : Ymap := [(.str "variables", .num 5)]

def fsC5 : FS := fun path =>
  if path = "p/ci.yml" then .value (.map docC5) else .notFound

/-- A file system in which every file reads as some valid YAML document (so
only the merge-key pre-pass can fail afterwards). -/
def fsAnyValue : FS := fun _ => .value .null

/-- A document in which job `b` extends itself and job `a` extends `b`: `b`
is built once as a direct key and again as `a`'s extends target. -/
def docC8 : Ymap :=
  [(.str "b", .map [(.str "extends", .str "b"),
                    (.str "variables", .map [(.str "X", .str "1")])]),
   (.str "a", .map [(.str "extends", .str "b")])]

def fsC8 : FS := fun path =>
  if path = "p/ci.yml" then .value (.map docC8) else .notFound

/-- The job stored under key `b`: built while `b` was not yet in the job
map, so its self-extension resolved to nothing. -/
def jobB1 : Job := .mk none none none (some [("X", "1")]) (some ["b"]) []

/-- The second build of `b`, demanded as `a`'s extends target after the
first build was recorded: its self-extension now finds the recorded `b`. -/
def jobB2 : Job := .mk none none none (some [("X", "1")]) (some ["b"]) [jobB1]

def jobA : Job := .mk none none none none (some ["b"]) [jobB2]

def cfgC8 : GitlabCIConfig :=
  .mk "p/ci.yml" none [] [] [("b", jobB1), ("a", jobA)]

/-- A document with a mapping-valued `stages` key and a mapping-valued
`include` key. -/
def docC9 : Ymap :=
  [(.str "stages", .map [(.str "s", .str "x")]),
   (.str "include", .map [])]

def fsC9 : FS := fun path =>
  if path = "p/ci.yml" then .value (.map docC9) else .notFound

/-- A document whose global `variables` mapping holds one number-valued and
one string-valued entry. -/
def docC10 : Ymap :=
  [(.str "variables", .map [(.str "A", .num 1), (.str "B", .str "x")])]

def fsC10 : FS := fun path =>
  if path = "p/ci.yml" then .value (.map docC10) else .notFound

/-- The configuration that parsing `docC9` produces: both reserved keys
fell through to job parsing. -/
def cfgC9 : GitlabCIConfig :=
  .mk "p/ci.yml" none [] []
    [("stages", .mk none none none none none []),
     ("include", .mk none none none none none [])]

/-- The configuration that parsing `docC10` produces: the number-valued
global variable was dropped. -/
def cfgC10 : GitlabCIConfig := .mk "p/ci.yml" none [("B", "x")] [] []

/-- A one-job configuration used to witness the job-map monotonicity
theorem. -/
def jobX : Job := .mk none none none none none []

def cfgW : GitlabCIConfig := .mk "f" none [] [] [("x", jobX)]

theorem oor_none_right (a : Option String) : oor a none = a := by
  cases a <;> rfl

theorem oor_assoc (a b c : Option String) :
    oor (oor a b) c = oor a (oor b c) := by
  cases a <;> cases b <;> rfl

theorem varsLookup_mapInsert (k k' v : String) (m : Vars) :
    varsLookup k (mapInsert k' v m) =
      if k = k' then some v else varsLookup k m := by
  induction m with
  | nil => simp [mapInsert, varsLookup]
  | cons hd tl ih =>
    obtain ⟨hk, hv⟩ := hd
    by_cases h1 : k' < hk
    · simp [mapInsert, h1, varsLookup]
    · by_cases h2 : k' = hk
      · subst h2
        by_cases h3 : k = k'
        · simp [mapInsert, h1, varsLookup, h3]
        · simp [mapInsert, h1, varsLookup, h3]
      · by_cases h3 : k = hk
        · subst h3
          have hne : ¬ k = k' := fun h => h2 h.symm
          simp [mapInsert, h1, h2, varsLookup, hne]
        · simp [mapInsert, h1, h2, varsLookup, h3, ih]

theorem mem_mapInsert (k v : String) (m : Vars) (p : String × String)
    (hp : p ∈ mapInsert k v m) : p = (k, v) ∨ p ∈ m := by
  induction m with
  | nil => simpa [mapInsert] using hp
  | cons hd tl ih =>
    obtain ⟨hk, hv⟩ := hd
    by_cases h1 : k < hk
    · simp only [mapInsert, if_pos h1, List.mem_cons] at hp
      rcases hp with h | h | h
      · exact Or.inl h
      · exact Or.inr (by simp [h])
      · exact Or.inr (by simp [h])
    · by_cases h2 : k = hk
      · simp only [mapInsert, if_neg h1, if_pos h2, List.mem_cons] at hp
        rcases hp with h | h
        · exact Or.inl h
        · exact Or.inr (by simp [h])
      · simp only [mapInsert, if_neg h1, if_neg h2, List.mem_cons] at hp
        rcases hp with h | h
        · exact Or.inr (by simp [h])
        · rcases ih h with h' | h'
          · exact Or.inl h'
          · exact Or.inr (by simp [h'])

theorem varsSorted_mapInsert (k v : String) (m : Vars)
    (h : VarsSorted m) : VarsSorted (mapInsert k v m) := by
  induction m with
  | nil => simp [mapInsert, VarsSorted]
  | cons hd tl ih =>
    obtain ⟨hk, hv⟩ := hd
    rw [VarsSorted, List.pairwise_cons] at h
    obtain ⟨hall, htl⟩ := h
    by_cases h1 : k < hk
    · rw [VarsSorted, mapInsert]
      simp only [if_pos h1]
      refine List.Pairwise.cons ?_ (List.Pairwise.cons hall htl)
      intro p hp
      rcases List.mem_cons.mp hp with h | h
      · simpa [h] using h1
      · exact lt_trans h1 (hall p h)
    · by_cases h2 : k = hk
      · rw [VarsSorted, mapInsert]
        simp only [if_neg h1, if_pos h2]
        refine List.Pairwise.cons ?_ htl
        intro p hp
        simpa [h2] using hall p hp
      · rw [VarsSorted, mapInsert]
        simp only [if_neg h1, if_neg h2]
        refine List.Pairwise.cons ?_ (ih htl)
        intro p hp
        rcases mem_mapInsert k v tl p hp with h | h
        · have : hk < k := by
            rcases lt_trichotomy k hk with h' | h' | h'
            · exact absurd h' h1
            · exact absurd h' h2
            · exact h'
          simpa [h] using this
        · exact hall p h

theorem varsSorted_insertAll (xs base : Vars) (h : VarsSorted base) :
    VarsSorted (insertAll base xs) := by
  induction xs generalizing base with
  | nil => exact h
  | cons hd tl ih =>
    exact ih (mapInsert hd.1 hd.2 base) (varsSorted_mapInsert hd.1 hd.2 base h)

theorem varsLookup_insertAll (xs base : Vars) (k : String) :
    varsLookup k (insertAll base xs) = oor (lastVal k xs) (varsLookup k base) := by
  induction xs generalizing base with
  | nil => simp [insertAll, lastVal, oor]
  | cons hd tl ih =>
    obtain ⟨hk, hv⟩ := hd
    show varsLookup k (insertAll (mapInsert hk hv base) tl) = _
    rw [ih]
    rw [varsLookup_mapInsert]
    show _ = oor (match lastVal k tl with
      | some r => some r
      | none => if k = hk then some hv else none) (varsLookup k base)
    cases hlv : lastVal k tl with
    | some r => simp [oor]
    | none =>
      by_cases h : k = hk <;> simp [oor, h]

theorem varsLookup_none_of_forall (k : String) (m : Vars)
    (h : ∀ p ∈ m, k ≠ p.1) : varsLookup k m = none := by
  induction m with
  | nil => rfl
  | cons hd tl ih =>
    have h1 : k ≠ hd.1 := h hd (by simp)
    obtain ⟨hk, hv⟩ := hd
    simp only [varsLookup, if_neg h1]
    exact ih (fun p hp => h p (by simp [hp]))

theorem lastVal_none_of_forall (k : String) (m : Vars)
    (h : ∀ p ∈ m, k ≠ p.1) : lastVal k m = none := by
  induction m with
  | nil => rfl
  | cons hd tl ih =>
    have h1 : k ≠ hd.1 := h hd (by simp)
    obtain ⟨hk, hv⟩ := hd
    simp only [lastVal, ih (fun p hp => h p (by simp [hp]))]
    simpa using h1

/-- On a sorted (hence duplicate-free) map, the last write for a key is its
unique binding. -/
theorem lastVal_eq_varsLookup (k : String) (m : Vars) (h : VarsSorted m) :
    lastVal k m = varsLookup k m := by
  induction m with
  | nil => rfl
  | cons hd tl ih =>
    obtain ⟨hk, hv⟩ := hd
    rw [VarsSorted, List.pairwise_cons] at h
    obtain ⟨hall, htl⟩ := h
    by_cases hkk : k = hk
    · subst hkk
      have hnone : lastVal k tl = none := by
        apply lastVal_none_of_forall
        intro p hp
        exact ne_of_lt (hall p hp)
      simp [lastVal, varsLookup, hnone]
    · simp only [lastVal, varsLookup, if_neg hkk, ih htl]
      cases varsLookup k tl <;> simp

/-- Extensionality: sorted maps with equal lookups are equal. -/
theorem vars_ext : ∀ (m1 m2 : Vars), VarsSorted m1 → VarsSorted m2 →
    (∀ k, varsLookup k m1 = varsLookup k m2) → m1 = m2
  | [], [], _, _, _ => rfl
  | [], (k2, v2) :: t2, _, _, h => by
    have := h k2
    simp [varsLookup] at this
  | (k1, v1) :: t1, [], _, _, h => by
    have := h k1
    simp [varsLookup] at this
  | (k1, v1) :: t1, (k2, v2) :: t2, h1, h2, h => by
    rw [VarsSorted, List.pairwise_cons] at h1 h2
    obtain ⟨hall1, ht1⟩ := h1
    obtain ⟨hall2, ht2⟩ := h2
    have hk : k1 = k2 := by
      rcases lt_trichotomy k1 k2 with hlt | heq | hgt
      · exfalso
        have hr : varsLookup k1 ((k2, v2) :: t2) = none := by
          apply varsLookup_none_of_forall
          intro p hp
          rcases List.mem_cons.mp hp with hp | hp
          · simp only [hp]
            exact ne_of_lt hlt
          · exact ne_of_lt (lt_trans hlt (hall2 p hp))
        have hl := h k1
        rw [hr] at hl
        simp [varsLookup] at hl
      · exact heq
      · exfalso
        have hr : varsLookup k2 ((k1, v1) :: t1) = none := by
          apply varsLookup_none_of_forall
          intro p hp
          rcases List.mem_cons.mp hp with hp | hp
          · simp only [hp]
            exact ne_of_lt hgt
          · exact ne_of_lt (lt_trans hgt (hall1 p hp))
        have hl := h k2
        rw [hr] at hl
        simp [varsLookup] at hl
    subst hk
    have hv : v1 = v2 := by
      have := h k1
      simpa [varsLookup] using this
    subst hv
    have htail : ∀ k, varsLookup k t1 = varsLookup k t2 := by
      intro k
      by_cases hkk : k = k1
      · subst hkk
        rw [varsLookup_none_of_forall k t1 (fun p hp => ne_of_lt (hall1 p hp)),
          varsLookup_none_of_forall k t2 (fun p hp => ne_of_lt (hall2 p hp))]
      · have := h k
        simpa [varsLookup, if_neg hkk] using this
    rw [vars_ext t1 t2 ht1 ht2 htail]

mutual
theorem job_calc_lookup (k : String) : ∀ (j : Job) (acc : Vars),
    varsLookup k (Job.calculate_variables j acc) =
      oor (Job.mergedLookup k j) (varsLookup k acc)
  | .mk s b sc vars e ejs, acc => by
    have hl := job_calcList_lookup k ejs acc
    cases vars with
    | none =>
      simp only [Job.calculate_variables, Job.mergedLookup, Option.getD, hl,
        lastVal, oor]
    | some vs =>
      simp only [Job.calculate_variables, Job.mergedLookup, Option.getD]
      rw [varsLookup_insertAll, hl, ← oor_assoc]

theorem job_calcList_lookup (k : String) : ∀ (js : List Job) (acc : Vars),
    varsLookup k (Job.calcList js acc) =
      oor (Job.mergedLookupList k js) (varsLookup k acc)
  | [], acc => by simp only [Job.calcList, Job.mergedLookupList, oor]
  | j :: rest, acc => by
    simp only [Job.calcList, Job.mergedLookupList]
    rw [job_calcList_lookup k rest _, job_calc_lookup k j acc, ← oor_assoc]
end

mutual
theorem job_calc_sorted : ∀ (j : Job) (acc : Vars),
    VarsSorted acc → VarsSorted (Job.calculate_variables j acc)
  | .mk s b sc vars e ejs, acc, h => by
    have hl := job_calcList_sorted ejs acc h
    cases vars with
    | none => simpa only [Job.calculate_variables] using hl
    | some vs =>
      simp only [Job.calculate_variables]
      exact varsSorted_insertAll vs _ hl

theorem job_calcList_sorted : ∀ (js : List Job) (acc : Vars),
    VarsSorted acc → VarsSorted (Job.calcList js acc)
  | [], acc, h => by simpa only [Job.calcList] using h
  | j :: rest, acc, h => by
    simp only [Job.calcList]
    exact job_calcList_sorted rest _ (job_calc_sorted j acc h)
end

theorem job_merged_sorted (j : Job) : VarsSorted j.get_merged_variables :=
  job_calc_sorted j [] (List.Pairwise.nil)

theorem job_merged_lookup (k : String) (j : Job) :
    varsLookup k j.get_merged_variables = Job.mergedLookup k j := by
  rw [Job.get_merged_variables, job_calc_lookup]
  simp [varsLookup, oor_none_right]

theorem foldl_insertAll_sorted (f : Job → Vars) (ps : List Job) (base : Vars)
    (h : VarsSorted base) :
    VarsSorted (ps.foldl (fun acc p => insertAll acc (f p)) base) := by
  induction ps generalizing base with
  | nil => exact h
  | cons j rest ih =>
    exact ih (insertAll base (f j)) (varsSorted_insertAll (f j) base h)

theorem foldl_merged_lookup (k : String) (ps : List Job) (base : Vars) :
    varsLookup k (ps.foldl (fun acc p => insertAll acc p.get_merged_variables) base) =
      oor (Job.mergedLookupList k ps) (varsLookup k base) := by
  induction ps generalizing base with
  | nil => simp only [List.foldl_nil, Job.mergedLookupList, oor]
  | cons j rest ih =>
    simp only [List.foldl_cons, Job.mergedLookupList]
    rw [ih, varsLookup_insertAll,
      lastVal_eq_varsLookup k _ (job_merged_sorted j), job_merged_lookup,
      ← oor_assoc]

theorem config_calc_foldl : ∀ (c : GitlabCIConfig) (acc : Vars),
    GitlabCIConfig.calculate_variables c acc = (configChain c).foldl insertAll acc
  | .mk f none vars st js, acc => by
    simp only [GitlabCIConfig.calculate_variables, configChain, List.foldl_cons,
      List.foldl_nil]
  | .mk f (some p) vars st js, acc => by
    simp only [GitlabCIConfig.calculate_variables, configChain,
      List.foldl_append, List.foldl_cons, List.foldl_nil]
    rw [config_calc_foldl p acc]


/-- C3: for every job J with resolved parent list [P1..Pn] and own variable
map V, the merged job variables equal the fold of merged(P1), ...,
merged(Pn), then V, where each later mapping overwrites matching keys of
the earlier ones (the job's own variables have highest precedence). -/
theorem C3_job_merged_variables_fold (j : Job) :
    j.get_merged_variables = specMergedJobVars j := by
  apply vars_ext
  · exact job_merged_sorted j
  · exact varsSorted_insertAll _ _
      (foldl_insertAll_sorted Job.get_merged_variables j.extends_jobs []
        List.Pairwise.nil)
  · intro k
    rw [job_merged_lookup]
    simp only [specMergedJobVars]
    rw [varsLookup_insertAll, foldl_merged_lookup]
    cases j with
    | mk s b sc vars e ejs =>
      simp [Job.mergedLookup, Job.variables, Job.extends_jobs, varsLookup,
        oor_none_right]

/-- C4: for every configuration C with include-parent chain [A1 (oldest) ..
Ak (nearest)], the merged configuration variables equal the fold of A1's
own variables, ..., Ak's own variables, then C's own variables, with later
writes overwriting matching keys (the current file wins). -/
theorem C4_config_merged_variables_fold (c : GitlabCIConfig) :
    c.get_merged_variables = specMergedConfigVars c := by
  simp only [GitlabCIConfig.get_merged_variables, specMergedConfigVars]
  exact config_calc_foldl c []

theorem jobsFind_append (jobs : List (String × Job)) (k : String) (j : Job)
    (n : String) :
    jobsFind (jobs ++ [(k, j)]) n =
      match jobsFind jobs n with
      | some r => some r
      | none => if n = k then some j else none := by
  induction jobs with
  | nil => simp [jobsFind]
  | cons hd tl ih =>
    obtain ⟨hn, hj⟩ := hd
    by_cases h : n = hn <;> simp [jobsFind, h, ih]

/-- Once a name is bound in the job map, the rest of the top-level pass
never rebuilds or replaces it. -/
theorem entries_jobs_mono : ∀ (fuel : Nat) (top : Ymap)
    (es : List (Value × Value)) (config cfg' : GitlabCIConfig)
    (name : String) (j : Job),
    jobsFind config.jobs name = some j →
    parse_aux_entries fuel top es config = .ok cfg' →
    jobsFind cfg'.jobs name = some j := by
  intro fuel top es
  induction es with
  | nil =>
    intro config cfg' name j hfind h
    simp only [parse_aux_entries, POut.ok.injEq] at h
    subst h
    exact hfind
  | cons e rest ih =>
    intro config cfg' name j hfind h
    obtain ⟨k, v⟩ := e
    cases k with
    | str key =>
      simp only [parse_aux_entries] at h
      by_cases hc : jobsContains config.jobs key = true
      · rw [if_pos hc] at h
        exact ih config cfg' name j hfind h
      · rw [if_neg hc] at h
        by_cases hv : key = "variables"
        · rw [if_pos hv] at h
          cases v with
          | map g =>
            refine ih _ cfg' name j ?_ h
            simpa [GitlabCIConfig.jobs] using hfind
          | null => exact POut.noConfusion h
          | bool b => exact POut.noConfusion h
          | num n => exact POut.noConfusion h
          | str s => exact POut.noConfusion h
          | seq l => exact POut.noConfusion h
        · rw [if_neg hv] at h
          split at h
          · refine ih _ cfg' name j ?_ h
            simpa [GitlabCIConfig.jobs] using hfind
          · cases hpj : parse_job fuel config key top with
            | none =>
              rw [hpj] at h
              exact POut.noConfusion h
            | some r =>
              cases r with
              | error e =>
                rw [hpj] at h
                exact ih config cfg' name j hfind h
              | ok job =>
                rw [hpj] at h
                refine ih _ cfg' name j ?_ h
                show jobsFind (config.jobs ++ [(key, job)]) name = some j
                rw [jobsFind_append, hfind]
    | null =>
      simp only [parse_aux_entries] at h
      exact ih config cfg' name j hfind h
    | bool b =>
      simp only [parse_aux_entries] at h
      exact ih config cfg' name j hfind h
    | num n =>
      simp only [parse_aux_entries] at h
      exact ih config cfg' name j hfind h
    | seq l =>
      simp only [parse_aux_entries] at h
      exact ih config cfg' name j hfind h
    | map m =>
      simp only [parse_aux_entries] at h
      exact ih config cfg' name j hfind h

theorem sansParents_withExtendsJobs (j : Job) (js : List Job) :
    (j.withExtendsJobs js).sansParents = j.sansParents := by
  cases j
  rfl

/-- Whatever `parse_job` resolves the parents to, the raw fields of the job
it returns are the field extractions of the name's mapping in `top`. -/
theorem parse_job_raw (fuel : Nat) (config : GitlabCIConfig) (name : String)
    (top : Ymap) (m : Ymap) (j : Job)
    (hget : ymapGet top name = some (.map m))
    (h : parse_job fuel config name top = some (.ok j)) :
    j.sansParents = parse_raw_job m := by
  cases fuel with
  | zero => exact Option.noConfusion h
  | succ n =>
    simp only [parse_job, hget] at h
    split at h
    · split at h
      · exact Option.noConfusion h
      · injection h with h'
        injection h' with h''
        subst h''
        rw [sansParents_withExtendsJobs]
        rfl
    · injection h with h'
      injection h' with h''
      subst h''
      rfl

/-- `parse_job` cannot return `Err` when the name's value in `top` is a
mapping. -/
theorem parse_job_not_error (fuel : Nat) (config : GitlabCIConfig)
    (name : String) (top : Ymap) (m : Ymap) (e : Unit)
    (hget : ymapGet top name = some (.map m)) :
    parse_job fuel config name top ≠ some (.error e) := by
  cases fuel with
  | zero => exact fun h => Option.noConfusion h
  | succ n =>
    intro h
    simp only [parse_job, hget] at h
    split at h
    · split at h
      · exact Option.noConfusion h
      · injection h with h'
        exact Except.noConfusion h'
    · injection h with h'
      exact Except.noConfusion h'

/-- If the document's remaining entries contain the entry `(name, m)` (and
every entry for `name` carries `m`), `name` is not yet in the job map, and
the top-level pass succeeds, then the result binds `name` to a job whose
raw fields are extracted from `m`. -/
theorem entries_job_inserted : ∀ (fuel : Nat) (top : Ymap)
    (es : List (Value × Value)) (config cfg' : GitlabCIConfig)
    (name : String) (m : Ymap),
    name ≠ "variables" →
    ymapGet top name = some (.map m) →
    (.str name, .map m) ∈ es →
    (∀ v', (.str name, v') ∈ es → v' = .map m) →
    jobsFind config.jobs name = none →
    parse_aux_entries fuel top es config = .ok cfg' →
    ∃ j, jobsFind cfg'.jobs name = some j ∧ j.sansParents = parse_raw_job m := by
  intro fuel top es
  induction es with
  | nil =>
    intro config cfg' name m _ _ hmem _ _ _
    exact absurd hmem (List.not_mem_nil _)
  | cons e rest ih =>
    intro config cfg' name m hnv hget hmem huniq hnone h
    obtain ⟨k, v⟩ := e
    cases k with
    | str key =>
      simp only [parse_aux_entries] at h
      by_cases hkey : key = name
      · subst hkey
        have hv : v = .map m := huniq v (List.mem_cons_self _ _)
        have hc : ¬(jobsContains config.jobs key = true) := by
          simp [jobsContains, hnone]
        rw [if_neg hc, if_neg hnv] at h
        split at h
        · exact Value.noConfusion hv
        · cases hpj : parse_job fuel config key top with
          | none =>
            rw [hpj] at h
            exact POut.noConfusion h
          | some r =>
            cases r with
            | error e2 =>
              exact absurd hpj (parse_job_not_error fuel config key top m e2 hget)
            | ok job =>
              rw [hpj] at h
              have hfound : jobsFind (config.jobs ++ [(key, job)]) key = some job := by
                rw [jobsFind_append, hnone]
                simp
              exact ⟨job,
                entries_jobs_mono fuel top rest
                  (.mk config.file config.parent config.variables config.stages
                    (config.jobs ++ [(key, job)])) cfg' key job hfound h,
                parse_job_raw fuel config key top m job hget hpj⟩
      · have hmem' : (Value.str name, Value.map m) ∈ rest := by
          rcases List.mem_cons.mp hmem with heq | h'
          · exfalso
            apply hkey
            have hf := congrArg Prod.fst heq
            simp only at hf
            injection hf with hf'
            exact hf'.symm
          · exact h'
        have huniq' : ∀ v', (Value.str name, v') ∈ rest → v' = .map m :=
          fun v' hv' => huniq v' (List.mem_cons_of_mem _ hv')
        by_cases hc : jobsContains config.jobs key = true
        · rw [if_pos hc] at h
          exact ih config cfg' name m hnv hget hmem' huniq' hnone h
        · rw [if_neg hc] at h
          by_cases hkv : key = "variables"
          · rw [if_pos hkv] at h
            cases v with
            | map g =>
              refine ih _ cfg' name m hnv hget hmem' huniq' ?_ h
              exact hnone
            | null => exact POut.noConfusion h
            | bool b => exact POut.noConfusion h
            | num n => exact POut.noConfusion h
            | str s => exact POut.noConfusion h
            | seq l => exact POut.noConfusion h
          · rw [if_neg hkv] at h
            split at h
            · refine ih _ cfg' name m hnv hget hmem' huniq' ?_ h
              exact hnone
            · cases hpj : parse_job fuel config key top with
              | none =>
                rw [hpj] at h
                exact POut.noConfusion h
              | some r =>
                cases r with
                | error e2 =>
                  rw [hpj] at h
                  exact ih config cfg' name m hnv hget hmem' huniq' hnone h
                | ok job =>
                  rw [hpj] at h
                  refine ih _ cfg' name m hnv hget hmem' huniq' ?_ h
                  show jobsFind (config.jobs ++ [(key, job)]) name = none
                  rw [jobsFind_append, hnone]
                  exact if_neg (fun hh => hkey hh.symm)
    | null =>
      simp only [parse_aux_entries] at h
      refine ih config cfg' name m hnv hget ?_ (fun v' hv' => huniq v' (List.mem_cons_of_mem _ hv')) hnone h
      rcases List.mem_cons.mp hmem with heq | h'
      · exact absurd (congrArg Prod.fst heq) (by simp)
      · exact h'
    | bool b =>
      simp only [parse_aux_entries] at h
      refine ih config cfg' name m hnv hget ?_ (fun v' hv' => huniq v' (List.mem_cons_of_mem _ hv')) hnone h
      rcases List.mem_cons.mp hmem with heq | h'
      · exact absurd (congrArg Prod.fst heq) (by simp)
      · exact h'
    | num n =>
      simp only [parse_aux_entries] at h
      refine ih config cfg' name m hnv hget ?_ (fun v' hv' => huniq v' (List.mem_cons_of_mem _ hv')) hnone h
      rcases List.mem_cons.mp hmem with heq | h'
      · exact absurd (congrArg Prod.fst heq) (by simp)
      · exact h'
    | seq l =>
      simp only [parse_aux_entries] at h
      refine ih config cfg' name m hnv hget ?_ (fun v' hv' => huniq v' (List.mem_cons_of_mem _ hv')) hnone h
      rcases List.mem_cons.mp hmem with heq | h'
      · exact absurd (congrArg Prod.fst heq) (by simp)
      · exact h'
    | map m2 =>
      simp only [parse_aux_entries] at h
      refine ih config cfg' name m hnv hget ?_ (fun v' hv' => huniq v' (List.mem_cons_of_mem _ hv')) hnone h
      rcases List.mem_cons.mp hmem with heq | h'
      · exact absurd (congrArg Prod.fst heq) (by simp)
      · exact h'

/-- If no remaining entry carries the key `variables`, the top-level pass
leaves the global variables untouched. -/
theorem entries_vars_none : ∀ (fuel : Nat) (top : Ymap)
    (es : List (Value × Value)) (config cfg' : GitlabCIConfig),
    docFilter es "variables" = [] →
    parse_aux_entries fuel top es config = .ok cfg' →
    cfg'.variables = config.variables := by
  intro fuel top es
  induction es with
  | nil =>
    intro config cfg' _ h
    simp only [parse_aux_entries, POut.ok.injEq] at h
    subst h
    rfl
  | cons e rest ih =>
    intro config cfg' hf h
    obtain ⟨k, v⟩ := e
    rw [docFilter, List.filter_cons] at hf
    cases k with
    | str key =>
      by_cases hkv : key = "variables"
      · subst hkv
        rw [if_pos (by simp [entryKeyIs])] at hf
        exact List.noConfusion hf
      · have hf' : docFilter rest "variables" = [] := by
          rwa [if_neg (by simp [entryKeyIs, hkv])] at hf
        simp only [parse_aux_entries] at h
        by_cases hc : jobsContains config.jobs key = true
        · rw [if_pos hc] at h
          exact ih config cfg' hf' h
        · rw [if_neg hc, if_neg hkv] at h
          split at h
          · rename_i seq0
            have h3 := ih (GitlabCIConfig.mk config.file config.parent
              config.variables
              (config.stages ++ List.filterMap (fun stage =>
                match stage with
                | Value.str stage_name => some stage_name
                | _ => none) seq0) config.jobs) cfg' hf' h
            exact h3
          · cases hpj : parse_job fuel config key top with
            | none =>
              rw [hpj] at h
              exact POut.noConfusion h
            | some r =>
              cases r with
              | error e2 =>
                rw [hpj] at h
                exact ih config cfg' hf' h
              | ok job =>
                rw [hpj] at h
                have h3 := ih (GitlabCIConfig.mk config.file config.parent
                  config.variables config.stages
                  (config.jobs ++ [(key, job)])) cfg' hf' h
                exact h3
    | null =>
      simp only [parse_aux_entries] at h
      exact ih config cfg' (by rwa [if_neg (by simp [entryKeyIs])] at hf) h
    | bool b =>
      simp only [parse_aux_entries] at h
      exact ih config cfg' (by rwa [if_neg (by simp [entryKeyIs])] at hf) h
    | num n =>
      simp only [parse_aux_entries] at h
      exact ih config cfg' (by rwa [if_neg (by simp [entryKeyIs])] at hf) h
    | seq l =>
      simp only [parse_aux_entries] at h
      exact ih config cfg' (by rwa [if_neg (by simp [entryKeyIs])] at hf) h
    | map m2 =>
      simp only [parse_aux_entries] at h
      exact ih config cfg' (by rwa [if_neg (by simp [entryKeyIs])] at hf) h

/-- If exactly one remaining entry carries the key `variables` (with a
mapping value `vm`) and no job named `variables` has been recorded, a
successful top-level pass leaves the global variables equal to the
accumulated variables extended by `vm`'s string entries. -/
theorem entries_vars_once : ∀ (fuel : Nat) (top : Ymap)
    (es : List (Value × Value)) (config cfg' : GitlabCIConfig) (vm : Ymap),
    docFilter es "variables" = [(.str "variables", .map vm)] →
    jobsFind config.jobs "variables" = none →
    parse_aux_entries fuel top es config = .ok cfg' →
    cfg'.variables = applyGlobalVars config.variables vm := by
  intro fuel top es
  induction es with
  | nil =>
    intro config cfg' vm hf _ _
    simp [docFilter] at hf
  | cons e rest ih =>
    intro config cfg' vm hf hnone h
    obtain ⟨k, v⟩ := e
    rw [docFilter, List.filter_cons] at hf
    cases k with
    | str key =>
      by_cases hkv : key = "variables"
      · subst hkv
        rw [if_pos (by simp [entryKeyIs])] at hf
        injection hf with hpv hrest
        have hv : v = Value.map vm := by
          have := congrArg Prod.snd hpv
          simpa using this
        subst hv
        simp only [parse_aux_entries] at h
        have hc : ¬(jobsContains config.jobs "variables" = true) := by
          simp [jobsContains, hnone]
        rw [if_neg hc] at h
        rw [if_pos trivial] at h
        have h2 : parse_aux_entries fuel top rest
            (.mk config.file config.parent (applyGlobalVars config.variables vm)
              config.stages config.jobs) = .ok cfg' := h
        exact entries_vars_none fuel top rest _ cfg' hrest h2
      · have hfr : docFilter rest "variables" = [(.str "variables", .map vm)] := by
          rwa [if_neg (by simp [entryKeyIs, hkv])] at hf
        simp only [parse_aux_entries] at h
        by_cases hc : jobsContains config.jobs key = true
        · rw [if_pos hc] at h
          exact ih config cfg' vm hfr hnone h
        · rw [if_neg hc, if_neg hkv] at h
          split at h
          · rename_i seq0
            have h3 := ih (GitlabCIConfig.mk config.file config.parent
              config.variables
              (config.stages ++ List.filterMap (fun stage =>
                match stage with
                | Value.str stage_name => some stage_name
                | _ => none) seq0) config.jobs) cfg' vm hfr hnone h
            exact h3
          · cases hpj : parse_job fuel config key top with
            | none =>
              rw [hpj] at h
              exact POut.noConfusion h
            | some r =>
              cases r with
              | error e2 =>
                rw [hpj] at h
                exact ih config cfg' vm hfr hnone h
              | ok job =>
                rw [hpj] at h
                have hnone2 : jobsFind (config.jobs ++ [(key, job)]) "variables" = none := by
                  rw [jobsFind_append, hnone]
                  exact if_neg (fun hh => hkv hh.symm)
                have h3 := ih (GitlabCIConfig.mk config.file config.parent
                  config.variables config.stages
                  (config.jobs ++ [(key, job)])) cfg' vm hfr hnone2 h
                exact h3
    | null =>
      simp only [parse_aux_entries] at h
      exact ih config cfg' vm (by rwa [if_neg (by simp [entryKeyIs])] at hf) hnone h
    | bool b =>
      simp only [parse_aux_entries] at h
      exact ih config cfg' vm (by rwa [if_neg (by simp [entryKeyIs])] at hf) hnone h
    | num n =>
      simp only [parse_aux_entries] at h
      exact ih config cfg' vm (by rwa [if_neg (by simp [entryKeyIs])] at hf) hnone h
    | seq l =>
      simp only [parse_aux_entries] at h
      exact ih config cfg' vm (by rwa [if_neg (by simp [entryKeyIs])] at hf) hnone h
    | map m2 =>
      simp only [parse_aux_entries] at h
      exact ih config cfg' vm (by rwa [if_neg (by simp [entryKeyIs])] at hf) hnone h

/-- The global-variables loop keeps exactly the string-valued entries. -/
theorem applyGlobalVars_eq (vm : Ymap) (base : Vars) :
    applyGlobalVars base vm = insertAll base (globalStringPairs vm) := by
  induction vm generalizing base with
  | nil => rfl
  | cons kv rest ih =>
    obtain ⟨k, v⟩ := kv
    cases k with
    | str ks =>
      cases v with
      | str vs =>
        have h1 : applyGlobalVars base ((Value.str ks, Value.str vs) :: rest) =
            applyGlobalVars (mapInsert ks vs base) rest := rfl
        have h2 : globalStringPairs ((Value.str ks, Value.str vs) :: rest) =
            (ks, vs) :: globalStringPairs rest := rfl
        rw [h1, h2, ih]
        rfl
      | null => exact ih base
      | bool b => exact ih base
      | num n => exact ih base
      | seq l => exact ih base
      | map m2 => exact ih base
    | null => exact ih base
    | bool b => exact ih base
    | num n => exact ih base
    | seq l => exact ih base
    | map m2 => exact ih base

/-- `parse_value_as_map` on a mapping: strings kept as-is, numbers and
booleans stringified, everything else dropped. -/
theorem parse_value_as_map_coerce (vm : Ymap) :
    parse_value_as_map (.map vm) = some (insertAll [] (jobCoercedPairs vm)) := by
  suffices h : ∀ base, vm.foldl (fun res kv =>
      match kv with
      | (.str k, .str v) => mapInsert k v res
      | (.str k, .num v) => mapInsert k (toString v) res
      | (.str k, .bool v) => mapInsert k (toString v) res
      | _ => res) base = insertAll base (jobCoercedPairs vm) by
    simp only [parse_value_as_map]
    rw [h []]
  induction vm with
  | nil => intro base; rfl
  | cons kv rest ih =>
    intro base
    obtain ⟨k, v⟩ := kv
    cases k with
    | str ks =>
      cases v with
      | str vs => exact (ih (mapInsert ks vs base)).trans rfl
      | num n => exact (ih (mapInsert ks (toString n) base)).trans rfl
      | bool b => exact (ih (mapInsert ks (toString b) base)).trans rfl
      | null => exact ih base
      | seq l => exact ih base
      | map m2 => exact ih base
    | null => exact ih base
    | bool b => exact ih base
    | num n => exact ih base
    | seq l => exact ih base
    | map m2 => exact ih base

theorem mem_of_docFilter_single (doc : Ymap) (name : String) (v : Value)
    (h : docFilter doc name = [(.str name, v)]) : (.str name, v) ∈ doc := by
  have hm : (Value.str name, v) ∈ docFilter doc name := by
    rw [h]
    exact List.mem_singleton.mpr rfl
  exact List.mem_of_mem_filter hm

theorem docFilter_unique (doc : Ymap) (name : String) (v : Value)
    (h : docFilter doc name = [(.str name, v)]) :
    ∀ v', (.str name, v') ∈ doc → v' = v := by
  intro v' hv'
  have hmem : (Value.str name, v') ∈ docFilter doc name := by
    rw [docFilter, List.mem_filter]
    exact ⟨hv', by simp [entryKeyIs]⟩
  rw [h] at hmem
  simpa using hmem

theorem ymapGet_of_docFilter_single (doc : Ymap) (name : String) (v : Value)
    (h : docFilter doc name = [(.str name, v)]) : ymapGet doc name = some v := by
  induction doc with
  | nil => simp [docFilter] at h
  | cons e rest ih =>
    obtain ⟨k, w⟩ := e
    rw [docFilter, List.filter_cons] at h
    cases k with
    | str s =>
      by_cases hs : s = name
      · subst hs
        rw [if_pos (by simp [entryKeyIs])] at h
        injection h with hpw hrest
        have hw : w = v := by
          have := congrArg Prod.snd hpw
          simpa using this
        subst hw
        simp [ymapGet]
      · rw [if_neg (by simp [entryKeyIs, hs])] at h
        simpa [ymapGet, hs] using ih h
    | null =>
      rw [if_neg (by simp [entryKeyIs])] at h
      simpa [ymapGet] using ih h
    | bool b =>
      rw [if_neg (by simp [entryKeyIs])] at h
      simpa [ymapGet] using ih h
    | num n =>
      rw [if_neg (by simp [entryKeyIs])] at h
      simpa [ymapGet] using ih h
    | seq l =>
      rw [if_neg (by simp [entryKeyIs])] at h
      simpa [ymapGet] using ih h
    | map m2 =>
      rw [if_neg (by simp [entryKeyIs])] at h
      simpa [ymapGet] using ih h

/-- A successful `parse_aux` on a mapping document amounts to running the
top-level entry loop on an empty configuration with some include-resolved
parent. -/
theorem parse_aux_ok_entries (fuel : Nat) (fs : FS) (mk : MergeKeys)
    (gitlab_file : String) (parent : Option GitlabCIConfig) (raw : Value)
    (doc : Ymap) (cfg : GitlabCIConfig)
    (hfs : fs gitlab_file = .value raw) (hmk : mk raw = some (.map doc))
    (hok : parse_aux (fuel+1) fs mk gitlab_file parent = .ok cfg) :
    ∃ p, parse_aux_entries fuel doc doc (.mk gitlab_file p [] [] []) = .ok cfg := by
  simp only [parse_aux, hfs, hmk] at hok
  split at hok
  · exact POut.noConfusion hok
  · exact POut.noConfusion hok
  · exact POut.noConfusion hok
  · exact ⟨_, hok⟩

/-- C9: for every parsed document whose top-level `stages` key has a mapping
value, or whose top-level `include` key has a mapping value, the assembled
configuration's job map contains a job named `stages` (respectively
`include`) built from that mapping: these reserved keys fall through to job
parsing whenever their value does not match the dedicated arm's expected
shape. -/
theorem C9_reserved_keys_fall_through_to_jobs : ∀ (fuel : Nat) (fs : FS)
    (mk : MergeKeys) (gitlab_file : String) (parent : Option GitlabCIConfig)
    (raw : Value) (doc : Ymap) (cfg : GitlabCIConfig),
    fs gitlab_file = .value raw →
    mk raw = some (.map doc) →
    parse_aux (fuel+1) fs mk gitlab_file parent = .ok cfg →
    (∀ ms, docFilter doc "stages" = [(.str "stages", .map ms)] →
      ∃ j, jobsFind cfg.jobs "stages" = some j ∧ j.sansParents = parse_raw_job ms) ∧
    (∀ mi, docFilter doc "include" = [(.str "include", .map mi)] →
      ∃ j, jobsFind cfg.jobs "include" = some j ∧ j.sansParents = parse_raw_job mi) := by
  intro fuel fs mk gitlab_file parent raw doc cfg hfs hmk hok
  obtain ⟨p, hen⟩ := parse_aux_ok_entries fuel fs mk gitlab_file parent raw doc cfg hfs hmk hok
  constructor
  · intro ms hfil
    exact entries_job_inserted fuel doc doc (.mk gitlab_file p [] [] []) cfg
      "stages" ms (by decide)
      (ymapGet_of_docFilter_single doc "stages" (.map ms) hfil)
      (mem_of_docFilter_single doc "stages" (.map ms) hfil)
      (docFilter_unique doc "stages" (.map ms) hfil)
      rfl hen
  · intro mi hfil
    exact entries_job_inserted fuel doc doc (.mk gitlab_file p [] [] []) cfg
      "include" mi (by decide)
      (ymapGet_of_docFilter_single doc "include" (.map mi) hfil)
      (mem_of_docFilter_single doc "include" (.map mi) hfil)
      (docFilter_unique doc "include" (.map mi) hfil)
      rfl hen

/-- C9 witness: parsing `docC9` (mapping-valued `stages` and `include`
keys) yields jobs named `stages` and `include` built from those mappings. -/
theorem C9_reserved_keys_fall_through_to_jobs_witness :
    (∃ j, jobsFind cfgC9.jobs "stages" = some j ∧
      j.sansParents = parse_raw_job [(.str "s", .str "x")]) ∧
    (∃ j, jobsFind cfgC9.jobs "include" = some j ∧
      j.sansParents = parse_raw_job []) := by
  have h := C9_reserved_keys_fall_through_to_jobs 4 fsC9 mkId "p/ci.yml" none
    (.map docC9) docC9 cfgC9 rfl rfl rfl
  exact ⟨h.1 _ rfl, h.2 _ rfl⟩

/-- C10: a top-level global `variables` entry keeps only its string-valued
entries (numbers and booleans are silently dropped), while the job-level
`variables` extractor stringifies numbers and booleans and keeps them. -/
theorem C10_global_variables_strings_only : ∀ (fuel : Nat) (fs : FS)
    (mk : MergeKeys) (gitlab_file : String) (parent : Option GitlabCIConfig)
    (raw : Value) (doc : Ymap) (cfg : GitlabCIConfig),
    fs gitlab_file = .value raw →
    mk raw = some (.map doc) →
    parse_aux (fuel+1) fs mk gitlab_file parent = .ok cfg →
    (∀ vm, docFilter doc "variables" = [(.str "variables", .map vm)] →
      cfg.variables = insertAll [] (globalStringPairs vm)) ∧
    (∀ vm, parse_value_as_map (.map vm) = some (insertAll [] (jobCoercedPairs vm))) := by
  intro fuel fs mk gitlab_file parent raw doc cfg hfs hmk hok
  obtain ⟨p, hen⟩ := parse_aux_ok_entries fuel fs mk gitlab_file parent raw doc cfg hfs hmk hok
  constructor
  · intro vm hfil
    have h1 := entries_vars_once fuel doc doc (.mk gitlab_file p [] [] []) cfg vm hfil rfl hen
    exact h1.trans (applyGlobalVars_eq vm [])
  · intro vm
    exact parse_value_as_map_coerce vm

/-- C10 witness: parsing `docC10` keeps only the string-valued global
variable, while the job-level extractor would stringify the number. -/
theorem C10_global_variables_strings_only_witness :
    cfgC10.variables =
      insertAll [] (globalStringPairs [(.str "A", .num 1), (.str "B", .str "x")]) ∧
    parse_value_as_map (.map [(.str "A", .num 1), (.str "B", .str "x")]) =
      some (insertAll [] (jobCoercedPairs [(.str "A", .num 1), (.str "B", .str "x")])) := by
  have h := C10_global_variables_strings_only 4 fsC10 mkId "p/ci.yml" none
    (.map docC10) docC10 cfgC10 rfl rfl rfl
  exact ⟨h.1 _ rfl, h.2 _⟩

/-- Neither job of the mutual-cycle document can be built with any amount
of fuel: `parse_job` on `a` demands `b`, which demands `a` again. -/
theorem parse_job_cycle_diverges : ∀ (fuel : Nat) (config : GitlabCIConfig),
    parse_job fuel config "a" cyclicTop = none ∧
    parse_job fuel config "b" cyclicTop = none := by
  intro fuel
  induction fuel with
  | zero => exact fun config => ⟨rfl, rfl⟩
  | succ n ih =>
    intro config
    constructor
    · have hb := (ih config).2
      simp only [cyclicTop] at hb
      simp [parse_job, cyclicTop, ymapGet, ymapContains, parse_raw_job,
        parse_value_as_strings, parse_value_as_string, Job.extendsNames, hb]
    · have ha := (ih config).1
      simp only [cyclicTop] at ha
      simp [parse_job, cyclicTop, ymapGet, ymapContains, parse_raw_job,
        parse_value_as_strings, parse_value_as_string, Job.extendsNames, ha]

/-- C1: the claim that mutual extends cycles are defused is wrong on the
code: for the document in which job `a` lists `b` in its extends names and
`b` lists `a`, `parse_job` recurses forever (no fuel bound suffices, i.e.
the Rust recursion never terminates), and the whole `parse` run diverges
instead of resolving the two jobs.  Only self-extension (`a` extends `a`)
is defused by the `job_name != parent_job_name` check. -/
theorem C1_mutual_extends_cycle_diverges :
    (∀ (fuel : Nat) (config : GitlabCIConfig),
      parse_job fuel config "a" cyclicTop = none) ∧
    (∀ fuel : Nat, parse fuel fsCyclic mkId "ci.yml" = .diverge) := by
  constructor
  · exact fun fuel config => (parse_job_cycle_diverges fuel config).1
  · intro fuel
    cases fuel with
    | zero => rfl
    | succ n =>
      have ha := (parse_job_cycle_diverges n (.mk "ci.yml" none [] [] [])).1
      simp only [cyclicTop] at ha
      simp [parse, parse_aux, fsCyclic, mkId, cyclicTop, ymapGet,
        parse_aux_entries, jobsContains, jobsFind, ha]

/-- C2 counterexample: with include list `[a.yml, b.yml]` where `a.yml`
parses fine and `b.yml` is missing, the failed entry does not leave the
accumulated parent unchanged: the whole accumulated parent (including
`a.yml`'s contribution) is dropped and resolution ends with no parent. -/
theorem C2_counterexample_failed_include_drops_parent :
    parse_includes 10 fsC2 mkId "d" (.seq [.str "a.yml"]) none = .ok (some cfgA) ∧
    parse_includes 10 fsC2 mkId "d" (.seq [.str "a.yml", .str "b.yml"]) none = .ok none :=
  ⟨rfl, rfl⟩

/-- `parse_includes` (and its sequence loop) can never return a fatal error
value: recursive parse failures are converted to `None` by `.ok()`. -/
theorem parse_includes_no_fatal : ∀ (fuel : Nat) (fs : FS) (mk : MergeKeys)
    (context : String),
    (∀ (v : Value) (parent : Option GitlabCIConfig) (e : ParseErr),
      parse_includes fuel fs mk context v parent ≠ .fatal e) ∧
    (∀ (l : List Value) (parent : Option GitlabCIConfig) (e : ParseErr),
      parse_includes_list fuel fs mk context l parent ≠ .fatal e) := by
  intro fuel fs mk context
  induction fuel with
  | zero =>
    exact ⟨fun v parent e h => POut.noConfusion h,
      fun l parent e h => POut.noConfusion h⟩
  | succ n ih =>
    constructor
    · intro v parent e h
      cases v with
      | str s =>
        simp only [parse_includes] at h
        split at h
        · exact POut.noConfusion h
        · split at h <;> exact POut.noConfusion h
      | seq l2 =>
        simp only [parse_includes] at h
        exact ih.2 l2 parent e h
      | map m =>
        simp only [parse_includes] at h
        split at h
        · split at h <;> exact POut.noConfusion h
        · split at h
          · split at h
            · split at h <;> exact POut.noConfusion h
            · exact POut.noConfusion h
          · exact POut.noConfusion h
      | null => simp [parse_includes] at h
      | bool b => simp [parse_includes] at h
      | num n2 => simp [parse_includes] at h
    · intro l parent e h
      cases l with
      | nil =>
        simp only [parse_includes_list] at h
        exact POut.noConfusion h
      | cons inc rest =>
        simp only [parse_includes_list] at h
        cases hpi : parse_includes n fs mk context inc parent with
        | ok p2 =>
          rw [hpi] at h
          exact ih.2 rest p2 e h
        | panicked =>
          rw [hpi] at h
          exact POut.noConfusion h
        | diverge =>
          rw [hpi] at h
          exact POut.noConfusion h
        | fatal e2 => exact ih.1 inc parent e2 hpi

/-- A non-empty bare-string include resolves the doubly-joined path and
converts any fatal outcome of the recursive parse to `None`. -/
theorem parse_includes_str_resolves (fuel : Nat) (fs : FS) (mk : MergeKeys)
    (context s : String) (parent : Option GitlabCIConfig) (ch : Char)
    (rest : List Char) (hls : s.toList = ch :: rest) :
    parse_includes (fuel+1) fs mk context (.str s) parent =
      match parse_aux fuel fs mk (stringIncludePath context s) parent with
      | POut.ok c => POut.ok (some c)
      | POut.fatal _ => POut.ok none
      | POut.panicked => POut.panicked
      | POut.diverge => POut.diverge := by
  simp only [parse_includes, stringIncludePath, hls]

/-- C2 amended: an include entry of unrecognized shape passes the
accumulated parent through unchanged, and no include failure ever aborts
the resolution with an error value; but when a recognized (bare-string)
entry fails to resolve, the accumulated parent is discarded — the entries
resolved so far are lost, and resolution continues with no parent at all. -/
theorem C2_amended_include_failure_behavior : ∀ (fuel : Nat) (fs : FS)
    (mk : MergeKeys) (context : String) (v : Value)
    (parent : Option GitlabCIConfig),
    (includeUnrecognized v = true →
      parse_includes (fuel+1) fs mk context v parent = .ok parent) ∧
    (∀ e, parse_includes fuel fs mk context v parent ≠ .fatal e) ∧
    (∀ s, v = .str s → s ≠ "" →
      fs (stringIncludePath context s) = .notFound →
      parse_includes (fuel+2) fs mk context v parent = .ok none) := by
  intro fuel fs mk context v parent
  refine ⟨fun hu => ?_, fun e => (parse_includes_no_fatal fuel fs mk context).1 v parent e, fun s hv hs hfs2 => ?_⟩
  · cases v with
    | null => simp [parse_includes]
    | bool b => simp [parse_includes]
    | num n => simp [parse_includes]
    | str s => simp [includeUnrecognized] at hu
    | seq l => simp [includeUnrecognized] at hu
    | map m =>
      simp only [includeUnrecognized, Bool.and_eq_true] at hu
      obtain ⟨hl, hp⟩ := hu
      simp only [parse_includes]
      split
      · rename_i loc heq
        rw [heq] at hl
        simp at hl
      · split
        · rename_i project heq
          rw [heq] at hp
          simp at hp
        · rfl
  · subst hv
    cases hls : s.toList with
    | nil =>
      exfalso
      apply hs
      obtain ⟨data⟩ := s
      have hdata : data = [] := hls
      rw [hdata]
    | cons ch rest =>
      have hpa : parse_aux (fuel+1) fs mk (stringIncludePath context s) parent =
          .fatal .notFound := by
        simp [parse_aux, hfs2]
      rw [parse_includes_str_resolves (fuel+1) fs mk context s parent ch rest hls,
        hpa]

/-- C2 amended witness: an unrecognized include shape keeps the (empty)
accumulated parent, and a missing bare-string include resolves to no
parent without a fatal error. -/
theorem C2_amended_include_failure_behavior_witness :
    parse_includes 1 fsNone mkId "d" .null none = .ok none ∧
    parse_includes 2 fsNone mkId "d" (.str "x.yml") none = .ok none :=
  ⟨(C2_amended_include_failure_behavior 0 fsNone mkId "d" .null none).1 rfl,
   (C2_amended_include_failure_behavior 0 fsNone mkId "d" (.str "x.yml") none).2.2
     "x.yml" rfl (by decide) rfl⟩

/-- C5: a root file whose top-level `variables` value is not a mapping does
not yield an assembled configuration with the entry omitted — the `?` on
`serde_yaml::from_value::<Mapping>` aborts the whole parse with an error,
contradicting the crate's own "anything unknown will be silently skipped"
contract. -/
theorem C5_nonmapping_global_variables_aborts_parse :
    parse 5 fsC5 mkId "p/ci.yml" = .fatal .varsNotMapping := rfl

/-- C6 counterexample: when the merge-key pre-pass fails on the root file,
`parse` panics (the `expect` on `merge_keys_serde`) instead of returning a
fatal error value. -/
theorem C6_counterexample_merge_key_failure_panics :
    parse 3 fsAnyValue mkFailing "p/ci.yml" = .panicked := rfl

/-- C6 amended: file-not-found, I/O failure and invalid YAML on the root
file each propagate to the caller as an error value, but a merge-key
expansion failure terminates abnormally (panic), not with an error
value. -/
theorem C6_amended_root_file_errors : ∀ (fuel : Nat) (fs : FS) (mk : MergeKeys)
    (gitlab_file : String) (parent : Option GitlabCIConfig),
    (fs gitlab_file = .notFound →
      parse_aux (fuel+1) fs mk gitlab_file parent = .fatal .notFound) ∧
    (fs gitlab_file = .ioErr →
      parse_aux (fuel+1) fs mk gitlab_file parent = .fatal .ioErr) ∧
    (fs gitlab_file = .badYaml →
      parse_aux (fuel+1) fs mk gitlab_file parent = .fatal .badYaml) ∧
    (∀ v, fs gitlab_file = .value v → mk v = none →
      parse_aux (fuel+1) fs mk gitlab_file parent = .panicked) := by
  intro fuel fs mk gitlab_file parent
  refine ⟨fun h => ?_, fun h => ?_, fun h => ?_, fun v hv hm => ?_⟩
  · simp [parse_aux, h]
  · simp [parse_aux, h]
  · simp [parse_aux, h]
  · simp [parse_aux, hv, hm]

theorem C6_amended_root_file_errors_witness :
    parse_aux 1 fsNone mkId "f" none = .fatal .notFound ∧
    parse_aux 1 fsAnyValue mkFailing "f" none = .panicked :=
  ⟨(C6_amended_root_file_errors 0 fsNone mkId "f" none).1 rfl,
   (C6_amended_root_file_errors 0 fsAnyValue mkFailing "f" none).2.2.2 .null rfl rfl⟩

/-- C7: include resolution does not always complete without panicking: a
bare-string include whose string is empty hits the `unwrap` on
`chars().next()` and panics. -/
theorem C7_empty_include_string_panics :
    parse_includes 4 fsNone mkId "d" (.str "") none = .panicked := rfl

/-- C8 counterexample: in `docC8`, job `b` is built once as a direct key
(recorded as `jobB1`, whose self-extension found nothing) and rebuilt when
demanded as `a`'s extends target (`jobB2`, whose self-extension now finds
the recorded `jobB1`).  The reference held by `a` is a different job from
the one in the configuration's job map. -/
theorem C8_counterexample_extends_target_rebuilt :
    parse 10 fsC8 mkId "p/ci.yml" = .ok cfgC8 ∧
    jobsFind cfgC8.jobs "b" = some jobB1 ∧
    jobsFind cfgC8.jobs "a" = some jobA ∧
    jobA.extends_jobs = [jobB2] ∧
    jobB2 ≠ jobB1 := by
  refine ⟨rfl, rfl, rfl, rfl, ?_⟩
  intro hEq
  simp [jobB2, jobB1] at hEq

/-- C8 amended: within the top-level pass a name already recorded in the
job map is never rebuilt or replaced (first recorded definition wins); a
name demanded as an extends target, however, is built anew at each demand
and never recorded, so references to it need not coincide with the job
map's entry. -/
theorem C8_amended_first_recorded_job_wins : ∀ (fuel : Nat) (top : Ymap)
    (es : List (Value × Value)) (config cfg' : GitlabCIConfig)
    (name : String) (j : Job),
    jobsFind config.jobs name = some j →
    parse_aux_entries fuel top es config = .ok cfg' →
    jobsFind cfg'.jobs name = some j :=
  entries_jobs_mono

theorem C8_amended_first_recorded_job_wins_witness :
    jobsFind cfgW.jobs "x" = some jobX :=
  C8_amended_first_recorded_job_wins 1 [] [(.str "x", .null)] cfgW cfgW "x" jobX
    rfl rfl
